import Mathlib

/-!
Shallow embedding of `packages/core/src/utils/asset-extract.ts`.

JavaScript strings are modelled as `List Char` (`Str`); the JS value type
`string | number` that webpack uses for chunk/module identifiers is modelled
by `JVal` (strict equality `===` is `DecidableEq`).  Optional fields of the
TypeScript record types are modelled with `Option`.  Machine details that the
claims depend on are kept faithfully: JS truthiness (`""` and `0` are falsy),
`undefined !== -1` being `true` for the optional-chained `indexOf` lookups,
and the `[...new Set(xs)]` spread preserving first insertion order.
-/

namespace AssetExtract

/-- A JavaScript string, modelled as its list of characters. -/
abbrev Str := List Char

/-- Shorthand to build a `Str` from a Lean string literal. -/
def str (s : String) : Str := s.data

/-- A JavaScript `string | number` value (webpack chunk/module ids). -/
inductive JVal where
  | str (s : Str)
  | num (n : Int)
deriving DecidableEq

/-- JS truthiness for `string | number`: `""` and `0` are falsy. -/
def JVal.isTruthy : JVal → Bool
  | .str s => !s.isEmpty
  | .num n => n != 0

/-- One entry of `ChunksMap['chunks']` (see the `ChunksMap` type in the
source).  Every field is optional there; `names` and `parents` are carried
for completeness although `extractFiles` does not read them. -/
structure Chunk where
  id : Option JVal := none
  names : Option (List Str) := none
  files : Option (List Str) := none
  parents : Option (List JVal) := none
  children : Option (List JVal) := none
  reasons : Option (List Str) := none
  reasonsStr : Option Str := none
  reasonModules : Option (List JVal) := none
deriving DecidableEq

/-- The `ChunksMap` type: `assetsByChunkName` is a string-keyed record,
modelled as an association list. -/
structure ChunksMap where
  assetsByChunkName : Option (List (Str × List Str)) := none
  chunks : List Chunk
deriving DecidableEq

/-- The route annotations of `LazyRouteMatch['route']`: optional `webpack`
(string or number) and optional `module` (string). -/
structure Route where
  module : Option Str := none
  webpack : Option JVal := none
deriving DecidableEq

/-- A matched route; only its `route` field is read by `extractFiles`. -/
structure LazyRouteMatch where
  route : Route
deriving DecidableEq

/-- JS substring containment: `s.indexOf(sub) !== -1`. -/
def strContains (s sub : Str) : Bool := decide (sub <:+: s)

/-- The optional-chained containment test `o?.indexOf?.(sub) !== -1` used on
`reasonsStr`: when the field is `undefined` the whole optional chain yields
`undefined`, and `undefined !== -1` is `true`. -/
def optReasonsHas (o : Option Str) (sub : Str) : Bool :=
  match o with
  | none => true
  | some s => strContains s sub

/-- Model of `hasExtension` (source lines 83-91): `parse(url)` splits off the
query/hash part, and `parsed.pathname?.endsWith?.(ext)` checks the extension
on what remains.  The legacy parser's query/hash stripping is modelled by
truncating at the first `?` or `#`. -/
def hasExtension (url ext : Str) : Bool :=
  ext.isSuffixOf (url.takeWhile (fun c => c != '?' && c != '#'))

/-- `filesFromChunks` (source lines 93-103): collect, in order, the files of
each chunk that match the extension; a missing `files` field is the empty
collection. -/
def filesFromChunks (chunks : List Chunk) (ext : Str) : List Str :=
  chunks.flatMap (fun ch => (ch.files.getD []).filter (fun f => hasExtension f ext))

/-- `prependForwardSlash` (source lines 132-137). -/
def prependForwardSlash (file : Str) : Str :=
  if (str "http").isPrefixOf file then file
  else if (str "/").isPrefixOf file then file
  else '/' :: file

/-- The filter deciding membership in the core/always-needed group
(source lines 168-175): `reasonsStr` contains `@currentProject`, or contains
`@reactpwa`, or is strictly equal to the empty string.  An absent
`reasonsStr` passes, because `undefined !== -1` is `true`. -/
def corePredicate (ch : Chunk) : Bool :=
  optReasonsHas ch.reasonsStr (str "@currentProject")
  || optReasonsHas ch.reasonsStr (str "@reactpwa")
  || decide (ch.reasonsStr = some [])

/-- `currentProjectChunks` (source line 168). -/
def currentProjectChunksOf (cm : ChunksMap) : List Chunk :=
  cm.chunks.filter corePredicate

/-- The files contributed by the core/always-needed group. -/
def coreGroupFiles (cm : ChunksMap) (ext : Str) : List Str :=
  filesFromChunks (currentProjectChunksOf cm) ext

/-- `chunksMap.assetsByChunkName?.main ?? []`. -/
def mainAssets (cm : ChunksMap) : List Str :=
  ((cm.assetsByChunkName.getD []).lookup (str "main")).getD []

/-- The per-route module-name chunk filter (source lines 210-215): the chunk
matches when `reasonsStr?.indexOf?.('||' + module + '||') !== -1`; an absent
`reasonsStr` matches every module name. -/
def moduleMatch (m : Str) (ch : Chunk) : Bool :=
  optReasonsHas ch.reasonsStr (str "||" ++ m ++ str "||")

/-- The batches pushed for one route's `module` name (source lines 210-222):
one `files` batch per matching chunk, in chunk order. -/
def moduleGroupBatches (m : Str) (cm : ChunksMap) (ext : Str) : List (List Str) :=
  (cm.chunks.filter (moduleMatch m)).map (fun ch => filesFromChunks [ch] ext)

/-- The per-route numeric-id chunk filter (source lines 226-230):
`reasonModules?.indexOf?.(webpackId) !== -1`; an absent `reasonModules`
matches (again `undefined !== -1`). -/
def numericMatch (n : Int) (ch : Chunk) : Bool :=
  match ch.reasonModules with
  | none => true
  | some l => l.contains (JVal.num n)

/-- The batches pushed for one route's numeric `webpack` id. -/
def numericGroupBatches (n : Int) (cm : ChunksMap) (ext : Str) : List (List Str) :=
  (cm.chunks.filter (numericMatch n)).map (fun ch => filesFromChunks [ch] ext)

/-- The canonicalization applied to a string `webpack` id (source line 240):
`webpackId.replace(/[./]/gi, '_').replace(/^_+|_+$/g, '')` — every `.` and
`/` character becomes `_`, then the leading and trailing runs of `_` are
removed. -/
def trimUnderscores (s : Str) : Str :=
  ((s.dropWhile (fun c => c == '_')).reverse.dropWhile (fun c => c == '_')).reverse

/-- Replace each `.` or `/` character with `_` (the `/[./]/gi` regex). -/
def replaceDotSlash (s : Str) : Str :=
  s.map (fun c => if c == '.' || c == '/' then '_' else c)

/-- The full canonicalization of a string `webpack` id. -/
def canonicalizeId (s : Str) : Str :=
  trimUnderscores (replaceDotSlash s)

/-- All chunk ids present in the map (the ids `addById` can ever find). -/
def allIds (cm : ChunksMap) : List JVal :=
  cm.chunks.filterMap (fun ch => ch.id)

/-- The traversal state of `addById`: the accumulated `positionedFiles`
batches and the `extractedAssets` visited set (insertion order kept). -/
abbrev TravState := List (List Str) × List JVal

/-- Fuelled version of `addById` (source lines 105-130).  The JS function
recurses through the `children` relation guarded by the `extractedAssets`
set; fuel makes the recursion total in Lean, and `addById_fuel_stable` below
shows the fuel never matters once it exceeds the number of chunk ids. -/
def addByIdF (cm : ChunksMap) (ext : Str) : Nat → JVal → TravState → TravState
  | 0, _, st => st
  | fuel + 1, w, st =>
    if w ∈ st.2 then st
    else
      match cm.chunks.find? (fun ch => decide (ch.id = some w)) with
      | none => (st.1, st.2 ++ [w])
      | some idChunk =>
        (idChunk.children.getD []).foldl
          (fun st' c => if c = w then st' else addByIdF cm ext fuel c st')
          (st.1 ++ [filesFromChunks [idChunk] ext], st.2 ++ [w])

/-- `addById`, run with enough fuel to be exact (see `addById_fuel_stable`). -/
def addById (cm : ChunksMap) (ext : Str) (w : JVal) (st : TravState) : TravState :=
  addByIdF cm ext ((allIds cm).length + 1) w st

/-- The batches pushed before the route loop (source lines 149-185): the
main group from `assetsByChunkName.main`, then the core/always-needed group;
each is pushed only when non-empty, and the pushed value is recomputed
exactly as in the source. -/
def preRouteBatches (cm : ChunksMap) (ext : Str) : List (List Str) :=
  let filesFromMain := (mainAssets cm).filter (fun f => hasExtension f ext)
  let pf1 : List (List Str) :=
    if filesFromMain.isEmpty then []
    else [(mainAssets cm).filter (fun f => hasExtension f ext)]
  let filesFromCurrentProjectChunks := coreGroupFiles cm ext
  if filesFromCurrentProjectChunks.isEmpty then pf1
  else pf1 ++ [coreGroupFiles cm ext]

/-- The module-name step of the route loop (source lines 210-222); the guard
is JS truthiness, so an empty module name is skipped. -/
def routeModuleStep (cm : ChunksMap) (ext : Str) (pf : List (List Str)) (r : Route) :
    List (List Str) :=
  match r.module with
  | some m => if m.isEmpty then pf else pf ++ moduleGroupBatches m cm ext
  | none => pf

/-- The numeric-id step of the route loop (source lines 224-237); `0` is
falsy and skipped. -/
def routeNumericStep (cm : ChunksMap) (ext : Str) (pf : List (List Str)) (r : Route) :
    List (List Str) :=
  match r.webpack with
  | some (.num n) => if n = 0 then pf else pf ++ numericGroupBatches n cm ext
  | _ => pf

/-- The string-id step of the route loop (source lines 239-244): canonicalize
the id and run the descendant traversal, threading the shared visited set. -/
def routeStringStep (cm : ChunksMap) (ext : Str) (st : TravState) (r : Route) :
    TravState :=
  match r.webpack with
  | some (.str s) =>
    if s.isEmpty then st
    else addById cm ext (JVal.str (canonicalizeId s)) st
  | _ => st

/-- One iteration of the `matchedRoutes.forEach` loop (source lines 207-245). -/
def routeStep (cm : ChunksMap) (ext : Str) (st : TravState) (r : LazyRouteMatch) :
    TravState :=
  let pf1 := routeModuleStep cm ext st.1 r.route
  let pf2 := routeNumericStep cm ext pf1 r.route
  routeStringStep cm ext (pf2, st.2) r.route

/-- The flattened file sequence of every batch, in push order
(`positionedFiles.map((p) => p.files).flat()`, source line 247). -/
def allGroupFiles (matchedRoutes : List LazyRouteMatch) (cm : ChunksMap) (ext : Str) :
    List Str :=
  ((matchedRoutes.foldl (routeStep cm ext) (preRouteBatches cm ext, ([] : List JVal))).1).flatten

/-- `[...new Set(xs)]`: deduplication keeping the first occurrence of each
element, in insertion order. -/
def jsSetDedup {α : Type} [DecidableEq α] (l : List α) : List α :=
  l.foldl (fun acc x => if x ∈ acc then acc else acc ++ [x]) []

/-- The resolver output before the final `prependForwardSlash` map. -/
def extractFilesPre (matchedRoutes : List LazyRouteMatch) (cm : ChunksMap) (ext : Str) :
    List Str :=
  jsSetDedup (allGroupFiles matchedRoutes cm ext)

/-- `extractFiles` (source lines 140-250).  A nullish `matchedRoutes`
argument returns `[]` (source line 145). -/
def extractFiles (matchedRoutes : Option (List LazyRouteMatch)) (cm : ChunksMap)
    (ext : Str) : List Str :=
  match matchedRoutes with
  | none => []
  | some mrs => (extractFilesPre mrs cm ext).map prependForwardSlash

/-- `extractStyles` (source lines 265-268). -/
def extractStyles (matchedRoutes : Option (List LazyRouteMatch)) (cm : ChunksMap) :
    List Str :=
  extractFiles matchedRoutes cm (str ".css")

/-- `extractScripts` (source lines 294-297). -/
def extractScripts (matchedRoutes : Option (List LazyRouteMatch)) (cm : ChunksMap) :
    List Str :=
  extractFiles matchedRoutes cm (str ".js")

/-- `extractMainScript` (source lines 299-301). -/
def extractMainScript (cm : ChunksMap) : List Str :=
  ((mainAssets cm).filter (fun f => hasExtension f (str ".js"))).map prependForwardSlash

/-- `getCssFileContent` (source lines 254-263).  The file system under the
fixed `join(__dirname, 'build', ·)` base is modelled by an oracle from asset
path to optional content; a missing file throws `'CSS file not found!'`. -/
def getCssFileContent (fs : Str → Option Str) (cssFile : Str) : Except Str Str :=
  match fs cssFile with
  | some content => .ok content
  | none => .error (str "CSS file not found!")

/-- Sequential model of the `Promise.all` body of `extractStylesWithContent`
(source lines 270-292): each path is served from the `cssContentMap` cache or
read from disk (populating the cache); the first rejection rejects the whole
aggregate, exactly as `Promise.all` rejects when any element rejects.
Returns the `{href, content}` pairs in order together with the final cache. -/
def stylesContentGo (fs : Str → Option Str) :
    List Str → List (Str × Str) → Except Str (List (Str × Str) × List (Str × Str))
  | [], cache => .ok ([], cache)
  | f :: rest, cache =>
    match cache.lookup f with
    | some content =>
      match stylesContentGo fs rest cache with
      | .ok (pairs, cache') => .ok ((f, content) :: pairs, cache')
      | .error e => .error e
    | none =>
      match getCssFileContent fs f with
      | .error e => .error e
      | .ok content =>
        match stylesContentGo fs rest (cache ++ [(f, content)]) with
        | .ok (pairs, cache') => .ok ((f, content) :: pairs, cache')
        | .error e => .error e

/-- `extractStylesWithContent` (source lines 270-292), over a file-system
oracle and an explicit incoming cache state. -/
def extractStylesWithContent (fs : Str → Option Str) (cache : List (Str × Str))
    (matchedRoutes : Option (List LazyRouteMatch)) (cm : ChunksMap) :
    Except Str (List (Str × Str) × List (Str × Str)) :=
  stylesContentGo fs (extractStyles matchedRoutes cm) cache

/-- Recursive form of `jsSetDedup` threading the already-seen prefix; used to
reason about the `[...new Set(xs)]` spread. -/
def dedupGo {α : Type} [DecidableEq α] : List α → List α → List α
  | [], _ => []
  | x :: xs, seen => if x ∈ seen then dedupGo xs seen else x :: dedupGo xs (seen ++ [x])

/-- Index of the first occurrence of `a` in a list (length of the list when
absent). -/
def firstPos {α : Type} [DecidableEq α] (a : α) : List α → Nat
  | [] => 0
  | b :: l => if a = b then 0 else firstPos a l + 1

/-- Helper for `specCanonicalize`: replace each maximal run of
non-alphanumeric characters with a single `_`; the flag records whether the
previous character was part of such a run. -/
def collapseGo : Bool → Str → Str
  | _, [] => []
  | inRun, c :: rest =>
    if c.isAlphanum then c :: collapseGo false rest
    else if inRun then collapseGo true rest
    else '_' :: collapseGo true rest

/-- Canonicalization as the spec sentence words it: replace every run of
non-alphanumeric characters with a single underscore, then trim leading and
trailing underscores.  Stated only for comparison with the source's
`canonicalizeId`. -/
def specCanonicalize (s : Str) : Str := trimUnderscores (collapseGo false s)

/-- The termination measure of the `addById` traversal: how many chunk ids of
the map are not yet in the visited set. -/
def remIds (cm : ChunksMap) (visited : List JVal) : Nat :=
  ((allIds cm).filter (fun i => decide (i ∉ visited))).length

/-! Concrete inputs used by the scenario claims. -/

/-- Scenario A: the single-chunk map with `assetsByChunkName.main`. -/
def cmA : ChunksMap :=
  { assetsByChunkName := some [(str "main", [str "main.js", str "main.css"])],
    chunks := [{ id := some (.num 1), names := some [str "main"],
                 files := some [str "main.js", str "main.css"] }] }

/-- Scenario B's chunk `A`. -/
def chunkA : Chunk :=
  { id := some (.str (str "home_module")), reasonsStr := some [],
    files := some [str "a.css"], children := some [] }

/-- Scenario B's chunk `B`. -/
def chunkB : Chunk :=
  { id := some (.num 2), children := some [JVal.str (str "home_module")],
    files := some [str "b.css"], reasonsStr := some [] }

/-- Scenario B's map. -/
def cmB : ChunksMap := { chunks := [chunkA, chunkB] }

/-- Scenario B's route `{webpack: "home.module"}`. -/
def routeHome : LazyRouteMatch := ⟨{ webpack := some (.str (str "home.module")) }⟩

/-- Scenario C's map: one chunk with a self-referential child link. -/
def cmC : ChunksMap :=
  { chunks := [{ id := some (.num 5), children := some [JVal.num 5],
                 files := some [str "c.js"] }] }

/-- A map whose single chunk lists the same asset with and without a leading
slash; exercises deduplication versus normalization. -/
def cmDup : ChunksMap :=
  { chunks := [{ reasonsStr := some [], files := some [str "x.css", str "/x.css"] }] }

/-- Scenario D's chunk, with `reasonsStr = "||Header||Footer||"`. -/
def chunkD : Chunk :=
  { reasonsStr := some (str "||Header||Footer||"), files := some [str "d.css"] }

/-- A chunk whose `reasonsStr` field is absent. -/
def chunkND : Chunk := { files := some [str "n.css"] }

/-- A map containing only `chunkND`. -/
def cmND : ChunksMap := { chunks := [chunkND] }

/-- A map for the canonicalization counterexample: its chunk id is the spec
rule's canonical form of `"a-b"`, and its `reasonsStr` keeps it out of the
main/core groups. -/
def cmC3 : ChunksMap :=
  { chunks := [{ id := some (.str (str "a_b")), reasonsStr := some (str "||z||"),
                 files := some [str "y.css"] }] }

/-- A route carrying the string webpack id `"a-b"`. -/
def routeAB : LazyRouteMatch := ⟨{ webpack := some (.str (str "a-b")) }⟩

/-- A file-system oracle holding `/a.css` but not `/b.css`. -/
def fs0 : Str → Option Str :=
  fun p => if p = str "/a.css" then some (str "A") else none

/-- A map resolving to the style paths `/a.css` and `/b.css`. -/
def cmC6 : ChunksMap :=
  { chunks := [{ reasonsStr := some [], files := some [str "a.css", str "b.css"] }] }

/-! Helper lemmas about `jsSetDedup` (the `[...new Set(xs)]` spread). -/

theorem foldl_dedup_eq {α : Type} [DecidableEq α] (l : List α) :
    ∀ acc : List α,
      l.foldl (fun acc x => if x ∈ acc then acc else acc ++ [x]) acc = acc ++ dedupGo l acc := by
  induction l with
  | nil => intro acc; simp [dedupGo]
  | cons x xs ih =>
    intro acc
    by_cases hx : x ∈ acc
    · rw [List.foldl_cons, if_pos hx, ih acc, dedupGo, if_pos hx]
    · rw [List.foldl_cons, if_neg hx, ih (acc ++ [x]), dedupGo, if_neg hx,
        List.append_assoc, List.singleton_append]

theorem jsSetDedup_eq_go {α : Type} [DecidableEq α] (l : List α) :
    jsSetDedup l = dedupGo l [] := by
  simpa using foldl_dedup_eq l []

theorem mem_dedupGo {α : Type} [DecidableEq α] (l : List α) :
    ∀ (seen : List α) (a : α), a ∈ dedupGo l seen ↔ a ∈ l ∧ a ∉ seen := by
  induction l with
  | nil => intro seen a; simp [dedupGo]
  | cons x xs ih =>
    intro seen a
    by_cases hx : x ∈ seen
    · rw [dedupGo, if_pos hx, ih seen a, List.mem_cons]
      constructor
      · rintro ⟨ha, hs⟩; exact ⟨Or.inr ha, hs⟩
      · rintro ⟨ha | ha, hs⟩
        · exact absurd (ha ▸ hx) hs
        · exact ⟨ha, hs⟩
    · rw [dedupGo, if_neg hx, List.mem_cons, ih (seen ++ [x]) a, List.mem_cons]
      simp only [List.mem_append, List.mem_singleton]
      constructor
      · rintro (rfl | ⟨ha, hs⟩)
        · exact ⟨Or.inl rfl, hx⟩
        · exact ⟨Or.inr ha, fun hmem => hs (Or.inl hmem)⟩
      · rintro ⟨rfl | ha, hs⟩
        · exact Or.inl rfl
        · by_cases hax : a = x
          · exact Or.inl hax
          · exact Or.inr ⟨ha, fun hmem => hmem.elim hs hax⟩

theorem nodup_dedupGo {α : Type} [DecidableEq α] (l : List α) :
    ∀ seen : List α, (dedupGo l seen).Nodup := by
  induction l with
  | nil => intro seen; simp [dedupGo]
  | cons x xs ih =>
    intro seen
    by_cases hx : x ∈ seen
    · rw [dedupGo, if_pos hx]; exact ih seen
    · rw [dedupGo, if_neg hx]
      refine List.nodup_cons.mpr ⟨fun hmem => ?_, ih _⟩
      exact ((mem_dedupGo xs _ x).mp hmem).2 (by simp)

theorem firstPos_dedupGo {α : Type} [DecidableEq α] (l : List α) :
    ∀ (seen : List α) (a b : α), a ∈ dedupGo l seen → b ∈ dedupGo l seen →
      (firstPos a (dedupGo l seen) < firstPos b (dedupGo l seen) ↔
        firstPos a l < firstPos b l) := by
  induction l with
  | nil => intro seen a b ha _; rw [dedupGo] at ha; cases ha
  | cons x xs ih =>
    intro seen a b ha hb
    by_cases hx : x ∈ seen
    · rw [dedupGo, if_pos hx] at ha hb
      have hax : a ≠ x := fun h => ((mem_dedupGo xs seen a).mp ha).2 (h ▸ hx)
      have hbx : b ≠ x := fun h => ((mem_dedupGo xs seen b).mp hb).2 (h ▸ hx)
      rw [dedupGo, if_pos hx, firstPos, if_neg hax, firstPos, if_neg hbx,
        Nat.add_lt_add_iff_right]
      exact ih seen a b ha hb
    · rw [dedupGo, if_neg hx] at ha hb
      rw [dedupGo, if_neg hx]
      by_cases hax : a = x
      · subst hax
        by_cases hbx : b = a
        · subst hbx; simp
        · have hb' : b ∈ dedupGo xs (seen ++ [a]) := by
            rcases List.mem_cons.mp hb with h | h
            · exact absurd h hbx
            · exact h
          rw [firstPos, if_pos rfl, firstPos, if_neg hbx, firstPos, if_pos rfl,
            firstPos, if_neg hbx]
          simp
      · have ha' : a ∈ dedupGo xs (seen ++ [x]) := by
          rcases List.mem_cons.mp ha with h | h
          · exact absurd h hax
          · exact h
        by_cases hbx : b = x
        · subst hbx
          rw [firstPos, if_neg hax, firstPos, if_pos rfl, firstPos, if_neg hax,
            firstPos, if_pos rfl]
          simp
        · have hb' : b ∈ dedupGo xs (seen ++ [x]) := by
            rcases List.mem_cons.mp hb with h | h
            · exact absurd h hbx
            · exact h
          rw [firstPos, if_neg hax, firstPos, if_neg hbx, firstPos, if_neg hax,
            firstPos, if_neg hbx, Nat.add_lt_add_iff_right, Nat.add_lt_add_iff_right]
          exact ih (seen ++ [x]) a b ha' hb'

/-! Helper lemmas for the termination of the `addById` traversal. -/

theorem length_filter_notMem_mono {α : Type} [DecidableEq α] (l : List α) (v v' : List α)
    (h : v ⊆ v') :
    (l.filter (fun i => decide (i ∉ v'))).length ≤
      (l.filter (fun i => decide (i ∉ v))).length := by
  induction l with
  | nil => simp
  | cons a l ih =>
    rw [List.filter_cons, List.filter_cons]
    by_cases ha' : a ∈ v'
    · have h1 : (decide (a ∉ v')) = false := by simp [ha']
      rw [h1]
      by_cases hav : a ∈ v
      · have h2 : (decide (a ∉ v)) = false := by simp [hav]
        rw [h2]; simpa using ih
      · have h2 : (decide (a ∉ v)) = true := by simp [hav]
        rw [h2]; simp only [if_pos rfl, Bool.false_eq_true, if_false, List.length_cons]
        exact Nat.le_succ_of_le ih
    · have hav : a ∉ v := fun hm => ha' (h hm)
      have h1 : (decide (a ∉ v')) = true := by simp [ha']
      have h2 : (decide (a ∉ v)) = true := by simp [hav]
      rw [h1, h2]
      simpa using ih

theorem length_filter_notMem_append_lt {α : Type} [DecidableEq α] (l : List α) (v : List α)
    (w : α) (hw : w ∈ l) (hv : w ∉ v) :
    (l.filter (fun i => decide (i ∉ v ++ [w]))).length <
      (l.filter (fun i => decide (i ∉ v))).length := by
  induction l with
  | nil => cases hw
  | cons a l ih =>
    rw [List.filter_cons, List.filter_cons]
    by_cases haw : a = w
    · subst haw
      have h1 : (decide (a ∉ v ++ [a])) = false := by simp
      have h2 : (decide (a ∉ v)) = true := by simp [hv]
      rw [h1, h2]
      have hmono := length_filter_notMem_mono l v (v ++ [a]) (List.subset_append_left _ _)
      rw [if_neg Bool.false_ne_true, if_pos rfl, List.length_cons]
      omega
    · have hw' : w ∈ l := by
        rcases List.mem_cons.mp hw with h | h
        · exact absurd h.symm haw
        · exact h
      by_cases hav : a ∈ v
      · have h1 : (decide (a ∉ v ++ [w])) = false := by simp [hav]
        have h2 : (decide (a ∉ v)) = false := by simp [hav]
        rw [h1, h2]
        simpa using ih hw'
      · have h1 : (decide (a ∉ v ++ [w])) = true := by
          simp [List.mem_append, hav, haw]
        have h2 : (decide (a ∉ v)) = true := by simp [hav]
        rw [h1, h2]
        simp only [if_pos rfl, List.length_cons]
        exact Nat.succ_lt_succ (ih hw')

theorem visited_subset_foldl {β : Type} (step : TravState → β → TravState)
    (h : ∀ st c, st.2 ⊆ (step st c).2) :
    ∀ (l : List β) (st : TravState), st.2 ⊆ (l.foldl step st).2 := by
  intro l
  induction l with
  | nil => intro st x hx; exact hx
  | cons c l ih => intro st x hx; exact ih (step st c) (h st c hx)

theorem visited_subset_addByIdF (cm : ChunksMap) (ext : Str) :
    ∀ (fuel : Nat) (w : JVal) (st : TravState), st.2 ⊆ (addByIdF cm ext fuel w st).2 := by
  intro fuel
  induction fuel with
  | zero => intro w st x hx; exact hx
  | succ fuel ih =>
    intro w st
    rw [addByIdF]
    by_cases hw : w ∈ st.2
    · rw [if_pos hw]; intro x hx; exact hx
    · rw [if_neg hw]
      cases hfind : cm.chunks.find? (fun ch => decide (ch.id = some w)) with
      | none =>
        intro x hx
        exact List.mem_append.mpr (Or.inl hx)
      | some idChunk =>
        intro x hx
        refine visited_subset_foldl _ ?_ _ _ ?_
        · intro st' c
          by_cases hc : c = w
          · rw [if_pos hc]; intro y hy; exact hy
          · rw [if_neg hc]; exact ih c st'
        · exact List.mem_append.mpr (Or.inl hx)

theorem remIds_addByIdF_le (cm : ChunksMap) (ext : Str) (fuel : Nat) (w : JVal)
    (st : TravState) :
    remIds cm (addByIdF cm ext fuel w st).2 ≤ remIds cm st.2 :=
  length_filter_notMem_mono _ _ _ (visited_subset_addByIdF cm ext fuel w st)

theorem addByIdF_fuel_succ (cm : ChunksMap) (ext : Str) :
    ∀ (fuel : Nat) (w : JVal) (st : TravState), remIds cm st.2 < fuel →
      addByIdF cm ext fuel w st = addByIdF cm ext (fuel + 1) w st := by
  intro fuel
  induction fuel with
  | zero => intro w st h; exact absurd h (Nat.not_lt_zero _)
  | succ fuel ih =>
    intro w st h
    rw [addByIdF, addByIdF]
    by_cases hw : w ∈ st.2
    · rw [if_pos hw, if_pos hw]
    · rw [if_neg hw, if_neg hw]
      cases hfind : cm.chunks.find? (fun ch => decide (ch.id = some w)) with
      | none => rfl
      | some idChunk =>
        have hwid : w ∈ allIds cm := by
          have hmem := List.mem_of_find?_eq_some hfind
          have hpred := List.find?_some hfind
          simp only [decide_eq_true_eq] at hpred
          exact List.mem_filterMap.mpr ⟨idChunk, hmem, hpred⟩
        have hlt : remIds cm (st.2 ++ [w]) < fuel := by
          have hstrict := length_filter_notMem_append_lt (allIds cm) st.2 w hwid hw
          have hle : remIds cm st.2 ≤ fuel := Nat.lt_succ_iff.mp h
          unfold remIds at hstrict hle ⊢
          omega
        have hfold : ∀ (l : List JVal) (st0 : TravState), remIds cm st0.2 < fuel →
            l.foldl (fun st' c => if c = w then st' else addByIdF cm ext fuel c st') st0 =
              l.foldl (fun st' c => if c = w then st'
                else addByIdF cm ext (fuel + 1) c st') st0 := by
          intro l
          induction l with
          | nil => intro st0 _; rfl
          | cons c l ihl =>
            intro st0 h0
            rw [List.foldl_cons, List.foldl_cons]
            by_cases hc : c = w
            · rw [if_pos hc, if_pos hc]
              exact ihl st0 h0
            · rw [if_neg hc, if_neg hc, ← ih c st0 h0]
              exact ihl _ (Nat.lt_of_le_of_lt (remIds_addByIdF_le cm ext fuel c st0) h0)
        exact hfold _ _ hlt

theorem addByIdF_fuel_add (cm : ChunksMap) (ext : Str) (k fuel : Nat) (w : JVal)
    (st : TravState) (h : remIds cm st.2 < fuel) :
    addByIdF cm ext fuel w st = addByIdF cm ext (fuel + k) w st := by
  induction k with
  | zero => rfl
  | succ k ihk =>
    rw [ihk]
    exact addByIdF_fuel_succ cm ext (fuel + k) w st
      (Nat.lt_of_lt_of_le h (Nat.le_add_right _ _))

theorem addByIdF_fuel_irrel (cm : ChunksMap) (ext : Str) (f₁ f₂ : Nat) (w : JVal)
    (st : TravState) (h₁ : remIds cm st.2 < f₁) (h₂ : remIds cm st.2 < f₂) :
    addByIdF cm ext f₁ w st = addByIdF cm ext f₂ w st := by
  rcases Nat.le_total f₁ f₂ with h | h
  · have heq := addByIdF_fuel_add cm ext (f₂ - f₁) f₁ w st h₁
    rwa [Nat.add_sub_cancel' h] at heq
  · have heq := addByIdF_fuel_add cm ext (f₁ - f₂) f₂ w st h₂
    rw [Nat.add_sub_cancel' h] at heq
    exact heq.symm

/-! Helper lemmas for the style-content fetcher. -/

theorem stylesContentGo_error_of_missing (fs : Str → Option Str) :
    ∀ (files : List Str) (cache : List (Str × Str)) (f : Str), f ∈ files →
      cache.lookup f = none → fs f = none →
      stylesContentGo fs files cache = .error (str "CSS file not found!") := by
  intro files
  induction files with
  | nil => intro cache f hf _ _; cases hf
  | cons g rest ih =>
    intro cache f hf hcache hfs
    cases hg : cache.lookup g with
    | some content =>
      have hfg : f ≠ g := fun h => by rw [h, hg] at hcache; cases hcache
      have hf' : f ∈ rest := by
        rcases List.mem_cons.mp hf with h | h
        · exact absurd h hfg
        · exact h
      simp only [stylesContentGo, hg, ih cache f hf' hcache hfs]
    | none =>
      cases hgf : fs g with
      | none => simp only [stylesContentGo, hg, getCssFileContent, hgf]
      | some content =>
        have hfg : f ≠ g := fun h => by rw [h, hgf] at hfs; cases hfs
        have hf' : f ∈ rest := by
          rcases List.mem_cons.mp hf with h | h
          · exact absurd h hfg
          · exact h
        have hcache' : (cache ++ [(g, content)]).lookup f = none := by
          rw [List.lookup_append, hcache]
          have hbeq : (f == g) = false := beq_eq_false_iff_ne.mpr hfg
          simp [List.lookup_cons, Option.or, hbeq]
        simp only [stylesContentGo, hg, getCssFileContent, hgf,
          ih (cache ++ [(g, content)]) f hf' hcache' hfs]

theorem stylesContentGo_ok_of_present (fs : Str → Option Str) :
    ∀ (files : List Str) (cache : List (Str × Str)),
      (∀ f, f ∈ files → cache.lookup f ≠ none ∨ fs f ≠ none) →
      ∃ pairs cache', stylesContentGo fs files cache = .ok (pairs, cache') ∧
        pairs.map Prod.fst = files := by
  intro files
  induction files with
  | nil => intro cache _; exact ⟨[], cache, rfl, rfl⟩
  | cons g rest ih =>
    intro cache hall
    cases hg : cache.lookup g with
    | some content =>
      obtain ⟨pairs, cache', hgo, hmap⟩ :=
        ih cache (fun f hf => hall f (List.mem_cons_of_mem _ hf))
      refine ⟨(g, content) :: pairs, cache', ?_, by simp [hmap]⟩
      simp only [stylesContentGo, hg, hgo]
    | none =>
      rcases hall g (List.mem_cons_self _ _) with hc | hfs
      · exact absurd hg hc
      · cases hgf : fs g with
        | none => exact absurd hgf hfs
        | some content =>
          have hrest : ∀ f, f ∈ rest →
              (cache ++ [(g, content)]).lookup f ≠ none ∨ fs f ≠ none := by
            intro f hf
            rcases hall f (List.mem_cons_of_mem _ hf) with hc | hfs'
            · left
              cases hl : cache.lookup f with
              | none => exact absurd hl hc
              | some v => rw [List.lookup_append, hl]; simp [Option.or]
            · right; exact hfs'
          obtain ⟨pairs, cache', hgo, hmap⟩ := ih (cache ++ [(g, content)]) hrest
          refine ⟨(g, content) :: pairs, cache', ?_, by simp [hmap]⟩
          simp only [stylesContentGo, hg, getCssFileContent, hgf, hgo]

/-! Claim theorems. -/

/-- C1 counterexample: in Scenario B the resolver output does include
`/b.css`, contrary to the claim — chunk `B` has an empty `reasonsStr`, so the
core/always-needed group picks it up even though the descendant traversal
never reaches it. -/
theorem scenarioB_includes_bcss :
    str "/b.css" ∈ extractFiles (some [routeHome]) cmB (str ".css") := by decide

/-- C1 (amended): resolving Scenario B yields exactly `["/a.css", "/b.css"]`:
`/b.css` enters through the core group (B's `reasonsStr` is the empty
string), while the descendant traversal started at the canonicalized id
`"home_module"` contributes only chunk A's file `a.css` — the traversal flows
id → children and never upward to the parent chunk B. -/
theorem scenarioB_resolution :
    extractFiles (some [routeHome]) cmB (str ".css") = [str "/a.css", str "/b.css"] ∧
      (addById cmB (str ".css") (JVal.str (canonicalizeId (str "home.module"))) ([], [])).1 =
        [[str "a.css"]] :=
  ⟨by decide, by decide⟩

/-- C2 counterexample: a chunk whose `reasonsStr` is absent is included in
the per-route module-name group for `"Header"` even though its `reasonsStr`
does not contain `"||Header||"` (it contains nothing at all), because the
optional-chained `indexOf` evaluates to `undefined` and `undefined !== -1`
holds; so the group is not "exactly those chunks whose reasonsStr contains m
wrapped in the delimiter". -/
theorem moduleGroup_includes_absent_reasonsStr :
    moduleGroupBatches (str "Header") cmND (str ".css") = [[str "n.css"]] ∧
      chunkND.reasonsStr = none :=
  ⟨by decide, rfl⟩

/-- C2 (amended): the per-route module-name group includes the files of
exactly those chunks whose `reasonsStr` is absent or contains the module
name wrapped in the `"||"` delimiter; in particular, for a chunk with
`reasonsStr = "||Header||Footer||"`, module `"Header"` matches and
`"HeaderX"` does not. -/
theorem moduleMatch_token_boundary :
    (∀ (m : Str) (ch : Chunk), moduleMatch m ch = true ↔
        (ch.reasonsStr = none ∨
          ∃ s, ch.reasonsStr = some s ∧ (str "||" ++ m ++ str "||") <:+: s)) ∧
      (∀ (m : Str) (cm : ChunksMap) (ext : Str),
        moduleGroupBatches m cm ext =
          (cm.chunks.filter (moduleMatch m)).map (fun ch => filesFromChunks [ch] ext)) ∧
      moduleMatch (str "Header") chunkD = true ∧
      moduleMatch (str "HeaderX") chunkD = false := by
  refine ⟨?_, fun _ _ _ => rfl, by decide, by decide⟩
  intro m ch
  cases hr : ch.reasonsStr with
  | none => simp [moduleMatch, optReasonsHas, hr]
  | some s => simp [moduleMatch, optReasonsHas, hr, strContains]

/-- C3 counterexample: the code's canonicalization replaces only `.` and `/`
characters, not every non-alphanumeric run, so `"a-b"` stays `"a-b"` while
the claimed rule would give `"a_b"`; consequently a route with webpack id
`"a-b"` fails to reach the chunk whose id is `"a_b"` and resolves to
nothing. -/
theorem canonicalizeId_not_spec_rule :
    canonicalizeId (str "a-b") = str "a-b" ∧
      specCanonicalize (str "a-b") = str "a_b" ∧
      extractFiles (some [routeAB]) cmC3 (str ".css") = [] :=
  ⟨by decide, by decide, by decide⟩

/-- C3 (amended): for every matched route carrying a non-empty string
`webpack` id `s`, the resolver uses `canonicalizeId s` as the starting chunk
id of the descendant traversal, where `canonicalizeId` replaces each `.` or
`/` character with an underscore (leaving every other character, and hence
other non-alphanumeric runs, unchanged) and trims leading and trailing
underscores — so `"home.module"` canonicalizes to `"home_module"`, `"a-b"`
stays `"a-b"`, and `"_a..b_"` becomes `"a__b"`. -/
theorem canonicalizeId_spec (cm : ChunksMap) (ext : Str) (s : Str)
    (hs : s.isEmpty = false) :
    extractFilesPre [⟨{ webpack := some (.str s) }⟩] cm ext =
        jsSetDedup ((addById cm ext (JVal.str (canonicalizeId s))
          (preRouteBatches cm ext, [])).1.flatten) ∧
      canonicalizeId s = trimUnderscores (replaceDotSlash s) ∧
      canonicalizeId (str "home.module") = str "home_module" ∧
      canonicalizeId (str "a-b") = str "a-b" ∧
      canonicalizeId (str "_a..b_") = str "a__b" := by
  refine ⟨?_, rfl, by decide, by decide, by decide⟩
  simp [extractFilesPre, allGroupFiles, routeStep, routeModuleStep, routeNumericStep,
    routeStringStep, hs]

/-- Witness for C3's amended theorem at the concrete id `"home.module"`. -/
theorem canonicalizeId_spec_witness :
    (str "home.module").isEmpty = false ∧
      extractFilesPre [⟨{ webpack := some (.str (str "home.module")) }⟩] cmB (str ".css") =
        jsSetDedup ((addById cmB (str ".css")
          (JVal.str (canonicalizeId (str "home.module")))
          (preRouteBatches cmB (str ".css"), [])).1.flatten) :=
  ⟨rfl, (canonicalizeId_spec cmB (str ".css") (str "home.module") rfl).1⟩

/-- C8: with an empty `matchedRoutes` list the resolver still runs the main
and core groups — the output is exactly the normalized deduplication of
those two groups — and on Scenario A's map, `resolve([], map, ".js")`
returns `["/main.js"]`. -/
theorem extractFiles_empty_routes :
    (∀ (cm : ChunksMap) (ext : Str),
      extractFiles (some []) cm ext =
        (jsSetDedup (preRouteBatches cm ext).flatten).map prependForwardSlash) ∧
      extractFiles (some []) cmA (str ".js") = [str "/main.js"] :=
  ⟨fun _ _ => rfl, by decide⟩

/-- C9: the path normalizer is idempotent — a path already returned by
`prependForwardSlash` is returned unchanged when normalized again. -/
theorem prependForwardSlash_idempotent (p : Str) :
    prependForwardSlash (prependForwardSlash p) = prependForwardSlash p := by
  cases h1 : (str "http").isPrefixOf p with
  | true => simp [prependForwardSlash, h1]
  | false =>
    cases h2 : (str "/").isPrefixOf p with
    | true => simp [prependForwardSlash, h1, h2]
    | false =>
      have hh : ((str "http").isPrefixOf ('/' :: p)) = false := rfl
      have hs : ((str "/").isPrefixOf ('/' :: p)) = true := by cases p <;> rfl
      simp [prependForwardSlash, h1, h2, hh, hs]

/-- C10: a chunk with an absent `reasonsStr` passes the core-group filter
(so its extension-matching files land in the core group whenever the chunk
is in the map) and matches every per-route module-name query, because the
optional-chained `indexOf` yields `undefined` and `undefined !== -1` is
`true`. -/
theorem absent_reasonsStr_always_matches (ch : Chunk) (h : ch.reasonsStr = none) :
    corePredicate ch = true ∧ (∀ m : Str, moduleMatch m ch = true) ∧
      ∀ (cm : ChunksMap) (ext : Str) (f : Str), ch ∈ cm.chunks →
        f ∈ (ch.files.getD []).filter (fun g => hasExtension g ext) →
        f ∈ coreGroupFiles cm ext := by
  refine ⟨by simp [corePredicate, optReasonsHas, h], ?_, ?_⟩
  · intro m; simp [moduleMatch, optReasonsHas, h]
  · intro cm ext f hch hf
    have hcore : corePredicate ch = true := by simp [corePredicate, optReasonsHas, h]
    unfold coreGroupFiles currentProjectChunksOf filesFromChunks
    exact List.mem_flatMap.mpr ⟨ch, List.mem_filter.mpr ⟨hch, hcore⟩, hf⟩

/-- Witness for C10 at a concrete absent-`reasonsStr` chunk and map. -/
theorem absent_reasonsStr_always_matches_witness :
    corePredicate chunkND = true ∧ moduleMatch (str "Header") chunkND = true ∧
      str "n.css" ∈ coreGroupFiles cmND (str ".css") :=
  ⟨(absent_reasonsStr_always_matches chunkND rfl).1,
   (absent_reasonsStr_always_matches chunkND rfl).2.1 (str "Header"),
   (absent_reasonsStr_always_matches chunkND rfl).2.2 cmND (str ".css") (str "n.css")
     (by decide) (by decide)⟩

/-- C4: on Scenario C's map (one chunk `{id: 5, children: [5], files:
["c.js"]}`), resolving any route whose string `webpack` id canonicalizes to
`"5"` with extension `".js"` terminates and yields `["/c.js"]` — the file
appears exactly once.  (The string `"5"` never strictly equals the numeric
chunk id `5`, so `addById` finds no chunk; `c.js` enters once via the core
group because the chunk's `reasonsStr` is absent.) -/
theorem extractFiles_cycle_scenario (s : Str) (h : canonicalizeId s = str "5") :
    extractFiles (some [⟨{ webpack := some (.str s) }⟩]) cmC (str ".js") =
      [str "/c.js"] := by
  have hs : s.isEmpty = false := by
    cases s with
    | nil => exact absurd h (by decide)
    | cons c cs => rfl
  simp only [extractFiles, extractFilesPre, allGroupFiles, List.foldl_cons, List.foldl_nil,
    routeStep, routeModuleStep, routeNumericStep, routeStringStep, hs, h,
    Bool.false_eq_true, if_false]
  decide

/-- Witness for C4 at the concrete string id `"5"`. -/
theorem extractFiles_cycle_scenario_witness :
    canonicalizeId (str "5") = str "5" ∧
      extractFiles (some [⟨{ webpack := some (.str (str "5")) }⟩]) cmC (str ".js") =
        [str "/c.js"] :=
  ⟨by decide, extractFiles_cycle_scenario (str "5") (by decide)⟩

/-- C5 counterexample: the deduplication happens before normalization, so a
map listing the same asset as `x.css` and `/x.css` makes the resolver output
contain `/x.css` twice — the output is not duplicate-free. -/
theorem extractFiles_duplicate_output :
    extractFiles (some []) cmDup (str ".css") = [str "/x.css", str "/x.css"] ∧
      ¬ (extractFiles (some []) cmDup (str ".css")).Nodup :=
  ⟨by decide, by decide⟩

/-- C5 (amended): the resolver deduplicates the raw (pre-normalization) path
sequence, keeping each raw path exactly once at the position of its first
appearance across the resolution groups, and then normalizes; the final
output is the normalized image of that duplicate-free list (so duplicates can
reappear only when distinct raw paths normalize to the same path). -/
theorem extractFiles_dedup_first_seen (mrs : List LazyRouteMatch) (cm : ChunksMap)
    (ext : Str) :
    extractFiles (some mrs) cm ext = (extractFilesPre mrs cm ext).map prependForwardSlash ∧
      (extractFilesPre mrs cm ext).Nodup ∧
      (∀ a, a ∈ extractFilesPre mrs cm ext ↔ a ∈ allGroupFiles mrs cm ext) ∧
      ∀ a b, a ∈ allGroupFiles mrs cm ext → b ∈ allGroupFiles mrs cm ext →
        (firstPos a (extractFilesPre mrs cm ext) < firstPos b (extractFilesPre mrs cm ext) ↔
          firstPos a (allGroupFiles mrs cm ext) < firstPos b (allGroupFiles mrs cm ext)) := by
  refine ⟨rfl, ?_, ?_, ?_⟩
  · rw [extractFilesPre, jsSetDedup_eq_go]
    exact nodup_dedupGo _ _
  · intro a
    rw [extractFilesPre, jsSetDedup_eq_go, mem_dedupGo]
    simp
  · intro a b ha hb
    rw [extractFilesPre, jsSetDedup_eq_go]
    exact firstPos_dedupGo _ _ a b ((mem_dedupGo _ _ a).mpr ⟨ha, by simp⟩)
      ((mem_dedupGo _ _ b).mpr ⟨hb, by simp⟩)

/-- Witness for C5's amended theorem on the duplicate-listing map. -/
theorem extractFiles_dedup_first_seen_witness :
    (extractFilesPre [] cmDup (str ".css")).Nodup ∧
      (firstPos (str "x.css") (extractFilesPre [] cmDup (str ".css")) <
          firstPos (str "/x.css") (extractFilesPre [] cmDup (str ".css")) ↔
        firstPos (str "x.css") (allGroupFiles [] cmDup (str ".css")) <
          firstPos (str "/x.css") (allGroupFiles [] cmDup (str ".css"))) :=
  ⟨(extractFiles_dedup_first_seen [] cmDup (str ".css")).2.1,
   (extractFiles_dedup_first_seen [] cmDup (str ".css")).2.2.2 _ _ (by decide) (by decide)⟩

/-- C6 counterexample: with `/a.css` present on disk and `/b.css` missing,
`extractStylesWithContent` rejects as a whole — it returns the
FileNotFound-kind error and produces no `{path, content}` pairs at all, not
even for the readable `/a.css`; the single-path failure aborts the other
paths of the same call. -/
theorem missing_style_aborts_call :
    fs0 (str "/a.css") = some (str "A") ∧
      extractStyles (some []) cmC6 = [str "/a.css", str "/b.css"] ∧
      extractStylesWithContent fs0 [] (some []) cmC6 =
        .error (str "CSS file not found!") :=
  ⟨rfl, by decide, rfl⟩

/-- C6 (amended): the FileNotFound-kind error arises from a single missing
path, but the `Promise.all` aggregation makes it reject the entire call: if
any resolved path is uncached and missing from disk, the call returns the
error and no pairs; only when every path is cached or present are the
`{path, content}` pairs produced, one per path in order. -/
theorem extractStylesWithContent_all_or_nothing (fs : Str → Option Str) :
    (∀ (cache : List (Str × Str)) (mrs : Option (List LazyRouteMatch)) (cm : ChunksMap),
      extractStylesWithContent fs cache mrs cm =
        stylesContentGo fs (extractStyles mrs cm) cache) ∧
      (∀ (files : List Str) (cache : List (Str × Str)) (f : Str), f ∈ files →
        cache.lookup f = none → fs f = none →
        stylesContentGo fs files cache = .error (str "CSS file not found!")) ∧
      ∀ (files : List Str) (cache : List (Str × Str)),
        (∀ f, f ∈ files → cache.lookup f ≠ none ∨ fs f ≠ none) →
        ∃ pairs cache', stylesContentGo fs files cache = .ok (pairs, cache') ∧
          pairs.map Prod.fst = files :=
  ⟨fun _ _ _ => rfl, stylesContentGo_error_of_missing fs, stylesContentGo_ok_of_present fs⟩

/-- Witness for C6's amended theorem on the concrete oracle missing
`/b.css`. -/
theorem extractStylesWithContent_all_or_nothing_witness :
    stylesContentGo fs0 [str "/a.css", str "/b.css"] [] =
      .error (str "CSS file not found!") :=
  (extractStylesWithContent_all_or_nothing fs0).2.1 [str "/a.css", str "/b.css"] []
    (str "/b.css") (by decide) rfl rfl

/-- C7: the recursive descendant traversal terminates for every `ChunksMap`,
whatever the shape of the `children` relation (cycles and self-links
included): thanks to the visited-id guard, the fuelled computation is stable
for every fuel beyond the number of chunk ids, so `addById` — which runs at
that bound — is the traversal's limit for every starting id and state. -/
theorem addById_fuel_stable (cm : ChunksMap) (ext : Str) (w : JVal) (st : TravState)
    (f : Nat) (hf : (allIds cm).length < f) :
    addByIdF cm ext f w st = addById cm ext w st :=
  addByIdF_fuel_irrel cm ext f ((allIds cm).length + 1) w st
    (Nat.lt_of_le_of_lt (List.length_filter_le _ _) hf)
    (Nat.lt_succ_of_le (List.length_filter_le _ _))

/-- Witness for C7 on the self-referential map of Scenario C. -/
theorem addById_fuel_stable_witness :
    (allIds cmC).length < 7 ∧
      addByIdF cmC (str ".js") 7 (JVal.num 5) ([], []) =
        addById cmC (str ".js") (JVal.num 5) ([], []) :=
  ⟨by decide, addById_fuel_stable cmC (str ".js") (JVal.num 5) ([], []) 7 (by decide)⟩

end AssetExtract
